import Mathlib

/-!
Verification of the `serde_hash` repository: a reversible obfuscation layer for
numeric identifiers in serialized records.  The development embeds

* the codec configuration (`SerdeHashOptions`, from
  `src/serde_hash_impl/src/hashids.rs`) and the process-wide once-initialized
  store holding it;
* the bijective integer-sequence/string codec.  The codec algorithm itself
  lives in the external `hash_ids` crate, which is not part of the sources;
  following the specification it is modelled here as a salt-parameterized,
  alphabet-restricted positional numeral system with deterministic
  minimum-length padding and strict (non-best-effort) decoding;
* the thin wrappers `encode`, `decode`, `encode_single`, `decode_single`
  (from `src/serde_hash_impl/src/hashids.rs`);
* the field classifier of the derive macros
  (`src/serde_hash_derive/src/lib.rs`);
* the per-category serde transforms (`src/serde_hash/src/serde_impl.rs`) and
  the map visitor generated by the legacy `HashIds` derive.
-/

namespace SerdeHash

/-- Mirrors `SerdeHashOptions` from `src/serde_hash_impl/src/hashids.rs`:
salt, minimum output length and encoding alphabet.  Strings are modelled as
lists of characters. -/
structure SerdeHashOptions where
  salt : List Char
  min_length : Nat
  alphabet : List Char
deriving DecidableEq

/-- Validity of a configuration, from the spec's data model: the alphabet is
a "string of unique characters" ("duplicate characters are invalid") and
"must contain enough distinct symbols (practically >= 16)". -/
def SerdeHashOptions.valid (o : SerdeHashOptions) : Prop :=
  o.alphabet.Nodup ∧ 16 ≤ o.alphabet.length

instance (o : SerdeHashOptions) : Decidable o.valid := by
  unfold SerdeHashOptions.valid
  infer_instance

/-- Modelled from the spec: the salt is "arbitrary bytes seeding alphabet
permutation".  The model condenses the salt into a number that selects the
permutation. -/
def saltKey (salt : List Char) : Nat :=
  salt.foldl (fun a c => a + c.toNat) 0

/-- Modelled from the spec: the salt-seeded permutation of the configured
alphabet ("a shuffled digit order"); the model uses the rotation selected by
`saltKey`, which is a permutation of the alphabet. -/
def shuffledAlphabet (o : SerdeHashOptions) : List Char :=
  o.alphabet.rotate (saltKey o.salt % o.alphabet.length)

/-- Modelled from the spec: the separator symbol placed between the encoded
integers of a sequence; carved out of the shuffled alphabet. -/
def sepChar (o : SerdeHashOptions) : Char :=
  (shuffledAlphabet o).headD '?'

/-- Modelled from the spec: the symbol used for the "deterministic,
options-derived padding" up to the minimum length; carved out of the shuffled
alphabet. -/
def padChar (o : SerdeHashOptions) : Char :=
  ((shuffledAlphabet o).drop 1).headD '?'

/-- Modelled from the spec: the digit symbols of the positional numeral
system: the shuffled alphabet minus the separator and padding symbols. -/
def digitChars (o : SerdeHashOptions) : List Char :=
  (shuffledAlphabet o).drop 2

/-- The radix of the positional numeral system. -/
def numBase (o : SerdeHashOptions) : Nat :=
  (digitChars o).length

/-- Little-endian base-`B` digits of `n`; `fuel` bounds the recursion depth
and any `fuel ≥ n` is enough. -/
def toBase (B : Nat) : Nat → Nat → List Nat
  | _, 0 => []
  | 0, _ + 1 => []
  | fuel + 1, n + 1 => ((n + 1) % B) :: toBase B fuel ((n + 1) / B)

/-- Value of a little-endian base-`B` digit list. -/
def fromBase (B : Nat) : List Nat → Nat
  | [] => 0
  | d :: ds => d + B * fromBase B ds

/-- Modelled from the spec: the digit string of one integer.  The value is
shifted by one so that every integer (including 0) has a non-empty digit
string. -/
def encodeNum (o : SerdeHashOptions) (n : Nat) : List Char :=
  (toBase (numBase o) (n + 1) (n + 1)).map (fun d => (digitChars o).getD d '?')

/-- Modelled from the spec: the unpadded encoding of a sequence.  The empty
sequence gets the one-symbol marker `[sepChar o]` (the spec requires a
"defined non-empty padded string" for empty input); a non-empty sequence is
the separator-joined list of digit strings. -/
def body (o : SerdeHashOptions) : List Nat → List Char
  | [] => [sepChar o]
  | S => [sepChar o].intercalate (S.map (encodeNum o))

/-- Mirrors `encode` from `src/serde_hash_impl/src/hashids.rs`; the codec it
delegates to is modelled from the spec: the unpadded body followed by
deterministic padding up to `min_length`.  Total: "never fails". -/
def encode (o : SerdeHashOptions) (S : List Nat) : List Char :=
  body o S ++ List.replicate (o.min_length - (body o S).length) (padChar o)

/-- Removes the trailing padding symbols. -/
def unpad (p : Char) (t : List Char) : List Char :=
  (t.reverse.dropWhile (fun c => c == p)).reverse

/-- Digit value of a character. -/
def charVal (o : SerdeHashOptions) (c : Char) : Nat :=
  (digitChars o).indexOf c

/-- Modelled from the spec: decoding of one digit group; fails on an empty
group, a character outside the digit set, or the group of the value 0 (which
no integer produces under the one-shift of `encodeNum`). -/
def decodeChunk (o : SerdeHashOptions) (cs : List Char) : Except String Nat :=
  if cs = [] then .error "DecodeError: empty digit group"
  else if ∀ c ∈ cs, c ∈ digitChars o then
    if fromBase (numBase o) (cs.map (charVal o)) = 0 then
      .error "DecodeError: invalid digit group"
    else .ok (fromBase (numBase o) (cs.map (charVal o)) - 1)
  else .error "DecodeError: character outside the digit set"

/-- Decodes every digit group, failing on the first bad group. -/
def decodeChunks (o : SerdeHashOptions) : List (List Char) → Except String (List Nat)
  | [] => .ok []
  | c :: rest =>
    match decodeChunk o c, decodeChunks o rest with
    | .ok n, .ok ns => .ok (n :: ns)
    | .error e, _ => .error e
    | .ok _, .error e => .error e

/-- Parses an unpadded body: the empty-sequence marker, or separator-split
digit groups. -/
def parseBody (o : SerdeHashOptions) (core : List Char) : Except String (List Nat) :=
  if core = [sepChar o] then .ok []
  else decodeChunks o (core.splitOn (sepChar o))

/-- Mirrors `decode` from `src/serde_hash_impl/src/hashids.rs`; the codec it
delegates to is modelled from the spec: fails if the text "contains a
character outside the configured alphabet or does not correspond to any
valid encoding under the current options (no silent best-effort decode)" —
the latter enforced by re-encoding the parsed sequence and comparing. -/
def decode (o : SerdeHashOptions) (t : List Char) : Except String (List Nat) :=
  if ∀ c ∈ t, c ∈ o.alphabet then
    match parseBody o (unpad (padChar o) t) with
    | .ok S => if encode o S = t then .ok S else .error "DecodeError: not an encoding"
    | .error e => .error e
  else .error "DecodeError: character outside the configured alphabet"

/-- Mirrors `encode_single` from `src/serde_hash_impl/src/hashids.rs`: calls
`encode` with the value wrapped in a one-element slice. -/
def encode_single (o : SerdeHashOptions) (data : Nat) : List Char :=
  encode o [data]

/-- Mirrors `decode_single` from `src/serde_hash_impl/src/hashids.rs`:
decodes, errors unless the result has exactly one element, else returns it. -/
def decode_single (o : SerdeHashOptions) (hash : List Char) : Except String Nat :=
  match decode o hash with
  | .error e => .error e
  | .ok l => if l.length ≠ 1 then .error "Invalid hash" else .ok (l.headD 0)

/-- The standard 62-character alphanumeric alphabet used by the repository's
default options and its tests. -/
def stdAlphabet : List Char :=
  "abcdefghijklmnopqrstuvwxyzABCDEFGHIJKLMNOPQRSTUVWXYZ1234567890".toList

/-- The options pinned by `test_basic` in
`src/serde_hash/tests/test_serialization.rs`: salt "hello world", minimum
length 10, standard 62-character alphabet. -/
def testOptions : SerdeHashOptions :=
  ⟨"hello world".toList, 10, stdAlphabet⟩

theorem shuffled_perm (o : SerdeHashOptions) :
    List.Perm (shuffledAlphabet o) o.alphabet :=
  List.rotate_perm o.alphabet _

theorem mem_shuffled (o : SerdeHashOptions) {c : Char} :
    c ∈ shuffledAlphabet o ↔ c ∈ o.alphabet :=
  (shuffled_perm o).mem_iff

theorem shuffled_nodup (o : SerdeHashOptions) (h : o.valid) :
    (shuffledAlphabet o).Nodup :=
  (shuffled_perm o).nodup_iff.mpr h.1

theorem shuffled_length (o : SerdeHashOptions) :
    (shuffledAlphabet o).length = o.alphabet.length :=
  List.length_rotate o.alphabet _

theorem shuffled_eq (o : SerdeHashOptions) (h : o.valid) :
    shuffledAlphabet o = sepChar o :: padChar o :: digitChars o := by
  have hl : 16 ≤ (shuffledAlphabet o).length := by
    rw [shuffled_length]; exact h.2
  rcases hA : shuffledAlphabet o with _ | ⟨a, _ | ⟨b, rest⟩⟩
  · rw [hA] at hl; simp at hl
  · rw [hA] at hl; simp at hl
  · simp [sepChar, padChar, digitChars, hA]

theorem digits_nodup (o : SerdeHashOptions) (h : o.valid) :
    (digitChars o).Nodup := by
  have := shuffled_nodup o h
  rw [shuffled_eq o h] at this
  exact this.of_cons.of_cons

theorem sep_ne_pad (o : SerdeHashOptions) (h : o.valid) :
    sepChar o ≠ padChar o := by
  have := shuffled_nodup o h
  rw [shuffled_eq o h, List.nodup_cons] at this
  exact fun he => this.1 (he ▸ List.mem_cons_self _ _)

theorem sep_not_digit (o : SerdeHashOptions) (h : o.valid) :
    sepChar o ∉ digitChars o := by
  have := shuffled_nodup o h
  rw [shuffled_eq o h, List.nodup_cons] at this
  exact fun he => this.1 (List.mem_cons_of_mem _ he)

theorem pad_not_digit (o : SerdeHashOptions) (h : o.valid) :
    padChar o ∉ digitChars o := by
  have := shuffled_nodup o h
  rw [shuffled_eq o h, List.nodup_cons, List.nodup_cons] at this
  exact this.2.1

theorem sep_mem_alpha (o : SerdeHashOptions) (h : o.valid) :
    sepChar o ∈ o.alphabet := by
  rw [← mem_shuffled, shuffled_eq o h]
  exact List.mem_cons_self _ _

theorem pad_mem_alpha (o : SerdeHashOptions) (h : o.valid) :
    padChar o ∈ o.alphabet := by
  rw [← mem_shuffled, shuffled_eq o h]
  exact List.mem_cons_of_mem _ (List.mem_cons_self _ _)

theorem digit_mem_alpha (o : SerdeHashOptions) (h : o.valid) {c : Char}
    (hc : c ∈ digitChars o) : c ∈ o.alphabet := by
  rw [← mem_shuffled, shuffled_eq o h]
  exact List.mem_cons_of_mem _ (List.mem_cons_of_mem _ hc)

theorem numBase_ge_two (o : SerdeHashOptions) (h : o.valid) :
    2 ≤ numBase o := by
  have : (digitChars o).length = (shuffledAlphabet o).length - 2 :=
    List.length_drop 2 (shuffledAlphabet o)
  rw [numBase, this, shuffled_length]
  have h16 := h.2
  omega

theorem fromBase_toBase {B : Nat} (hB : 2 ≤ B) :
    ∀ fuel n, n ≤ fuel → fromBase B (toBase B fuel n) = n := by
  intro fuel
  induction fuel with
  | zero =>
    intro n hn
    interval_cases n
    rfl
  | succ f ih =>
    intro n hn
    match n with
    | 0 => rfl
    | m + 1 =>
      have hdiv : (m + 1) / B ≤ f := by
        have hlt : (m + 1) / B < m + 1 := Nat.div_lt_self (by omega) (by omega)
        omega
      simp only [toBase, fromBase, ih _ hdiv]
      exact Nat.mod_add_div (m + 1) B

theorem toBase_mem_lt {B : Nat} (hB : 0 < B) :
    ∀ fuel n d, d ∈ toBase B fuel n → d < B := by
  intro fuel
  induction fuel with
  | zero =>
    intro n d hd
    match n with
    | 0 => simp [toBase] at hd
    | m + 1 => simp [toBase] at hd
  | succ f ih =>
    intro n d hd
    match n with
    | 0 => simp [toBase] at hd
    | m + 1 =>
      simp only [toBase, List.mem_cons] at hd
      rcases hd with he | he
      · exact he ▸ Nat.mod_lt _ hB
      · exact ih _ _ he

theorem toBase_ne_nil {B : Nat} :
    ∀ fuel n, n ≠ 0 → fuel ≠ 0 → toBase B fuel n ≠ [] := by
  intro fuel n h1 h2
  match fuel, n with
  | 0, _ => exact absurd rfl h2
  | _ + 1, 0 => exact absurd rfl h1
  | f + 1, m + 1 => simp [toBase]

theorem encodeNum_ne_nil (o : SerdeHashOptions) (n : Nat) :
    encodeNum o n ≠ [] := by
  rw [encodeNum]
  intro hc
  exact toBase_ne_nil (n + 1) (n + 1) (Nat.succ_ne_zero n) (Nat.succ_ne_zero n)
    (List.map_eq_nil_iff.mp hc)

theorem getD_digit (o : SerdeHashOptions) {d : Nat} (hd : d < (digitChars o).length) :
    (digitChars o).getD d '?' = (digitChars o)[d] := by
  simp [List.getD_eq_getElem?_getD, List.getElem?_eq_getElem hd]

theorem mem_encodeNum (o : SerdeHashOptions) (h : o.valid) {n : Nat} {c : Char}
    (hc : c ∈ encodeNum o n) : c ∈ digitChars o := by
  rw [encodeNum, List.mem_map] at hc
  obtain ⟨d, hd, hcd⟩ := hc
  have hlt : d < (digitChars o).length :=
    @toBase_mem_lt (numBase o) (by have := numBase_ge_two o h; omega) _ _ _ hd
  rw [← hcd, getD_digit o hlt]
  exact List.getElem_mem hlt

theorem decodeChunk_encodeNum (o : SerdeHashOptions) (h : o.valid) (n : Nat) :
    decodeChunk o (encodeNum o n) = .ok n := by
  have hB : 2 ≤ numBase o := numBase_ge_two o h
  have hmap : (encodeNum o n).map (charVal o) = toBase (numBase o) (n + 1) (n + 1) := by
    rw [encodeNum, List.map_map]
    have : ∀ d ∈ toBase (numBase o) (n + 1) (n + 1),
        (charVal o ∘ fun d => (digitChars o).getD d '?') d = d := by
      intro d hd
      have hlt : d < (digitChars o).length :=
        @toBase_mem_lt (numBase o) (by omega) _ _ _ hd
      simp only [Function.comp_apply, charVal, getD_digit o hlt]
      exact List.indexOf_getElem (digits_nodup o h) d hlt
    rw [List.map_congr_left this]
    simp
  rw [decodeChunk, if_neg (encodeNum_ne_nil o n),
    if_pos (fun c hc => mem_encodeNum o h hc), hmap,
    fromBase_toBase hB _ _ (le_refl (n + 1))]
  simp

theorem intercalate_one (x : Char) (l : List Char) :
    [x].intercalate [l] = l := by
  simp [List.intercalate]

theorem intercalate_two (x : Char) (a b : List Char) (t : List (List Char)) :
    [x].intercalate (a :: b :: t) = a ++ x :: [x].intercalate (b :: t) := by
  simp [List.intercalate]

theorem body_cons (o : SerdeHashOptions) (x : Nat) (xs : List Nat) :
    body o (x :: xs) = [sepChar o].intercalate ((x :: xs).map (encodeNum o)) :=
  rfl

theorem mem_intercalate_sep {c x : Char} :
    ∀ ls : List (List Char), c ∈ [x].intercalate ls → c = x ∨ ∃ l ∈ ls, c ∈ l := by
  intro ls
  induction ls with
  | nil => simp [List.intercalate]
  | cons a t ih =>
    match t with
    | [] =>
      rw [intercalate_one]
      intro hc
      exact Or.inr ⟨a, List.mem_cons_self _ _, hc⟩
    | b :: t' =>
      rw [intercalate_two]
      intro hc
      rcases List.mem_append.1 hc with hc | hc
      · exact Or.inr ⟨a, List.mem_cons_self _ _, hc⟩
      · rcases List.mem_cons.1 hc with hc | hc
        · exact Or.inl hc
        · rcases ih hc with hc | ⟨l, hl, hcl⟩
          · exact Or.inl hc
          · exact Or.inr ⟨l, List.mem_cons_of_mem _ hl, hcl⟩

theorem mem_body (o : SerdeHashOptions) (h : o.valid) {S : List Nat} {c : Char}
    (hc : c ∈ body o S) : c = sepChar o ∨ c ∈ digitChars o := by
  match S with
  | [] =>
    simp only [body, List.mem_singleton] at hc
    exact Or.inl hc
  | x :: xs =>
    rw [body_cons] at hc
    rcases mem_intercalate_sep _ hc with hc | ⟨l, hl, hcl⟩
    · exact Or.inl hc
    · rw [List.mem_map] at hl
      obtain ⟨n, _, hn⟩ := hl
      exact Or.inr (mem_encodeNum o h (hn ▸ hcl))

theorem pad_not_mem_body (o : SerdeHashOptions) (h : o.valid) (S : List Nat) :
    padChar o ∉ body o S := by
  intro hc
  rcases mem_body o h hc with hc | hc
  · exact sep_ne_pad o h hc.symm
  · exact pad_not_digit o h hc

theorem body_mem_alpha (o : SerdeHashOptions) (h : o.valid) {S : List Nat} {c : Char}
    (hc : c ∈ body o S) : c ∈ o.alphabet := by
  rcases mem_body o h hc with hc | hc
  · exact hc ▸ sep_mem_alpha o h
  · exact digit_mem_alpha o h hc

theorem unpad_append_replicate (p : Char) (b : List Char) (hb : p ∉ b) (k : Nat) :
    unpad p (b ++ List.replicate k p) = b := by
  rw [unpad, List.reverse_append, List.reverse_replicate]
  have h1 : ∀ m, List.dropWhile (fun c => c == p) (List.replicate m p ++ b.reverse) =
      List.dropWhile (fun c => c == p) b.reverse := by
    intro m
    induction m with
    | zero => simp
    | succ mm ih =>
      rw [List.replicate_succ, List.cons_append, List.dropWhile_cons]
      simp [ih]
  rw [h1]
  have h2 : List.dropWhile (fun c => c == p) b.reverse = b.reverse := by
    rcases hbr : b.reverse with _ | ⟨c, r⟩
    · simp
    · have hcb : c ∈ b := by
        rw [← List.mem_reverse, hbr]
        exact List.mem_cons_self _ _
      have hcp : (c == p) = false :=
        beq_eq_false_iff_ne.mpr (fun he => hb (he ▸ hcb))
      rw [List.dropWhile_cons, hcp]
      simp
  rw [h2, List.reverse_reverse]

theorem unpad_encode (o : SerdeHashOptions) (h : o.valid) (S : List Nat) :
    unpad (padChar o) (encode o S) = body o S :=
  unpad_append_replicate _ _ (pad_not_mem_body o h S) _

theorem decodeChunks_map (o : SerdeHashOptions) (h : o.valid) (S : List Nat) :
    decodeChunks o (S.map (encodeNum o)) = .ok S := by
  induction S with
  | nil => rfl
  | cons x xs ih =>
    rw [List.map_cons, decodeChunks, decodeChunk_encodeNum o h x, ih]

theorem body_ne_sep (o : SerdeHashOptions) (h : o.valid) (x : Nat) (xs : List Nat) :
    body o (x :: xs) ≠ [sepChar o] := by
  match xs with
  | [] =>
    rw [body_cons, List.map_cons, List.map_nil, intercalate_one]
    intro he
    have : sepChar o ∈ encodeNum o x := he ▸ List.mem_cons_self _ _
    exact sep_not_digit o h (mem_encodeNum o h this)
  | y :: t =>
    rw [body_cons, List.map_cons, List.map_cons, intercalate_two]
    intro he
    have hlen := congrArg List.length he
    rw [List.length_append, List.length_cons, List.length_singleton] at hlen
    have h1 : (encodeNum o x).length ≠ 0 :=
      fun hz => encodeNum_ne_nil o x (List.length_eq_zero.mp hz)
    omega

theorem parseBody_body (o : SerdeHashOptions) (h : o.valid) (S : List Nat) :
    parseBody o (body o S) = .ok S := by
  match S with
  | [] => simp [parseBody, body]
  | x :: xs =>
    rw [parseBody, if_neg (body_ne_sep o h x xs), body_cons]
    have hx : ∀ l ∈ (x :: xs).map (encodeNum o), sepChar o ∉ l := by
      intro l hl hsep
      rw [List.mem_map] at hl
      obtain ⟨n, _, hn⟩ := hl
      exact sep_not_digit o h (mem_encodeNum o h (hn ▸ hsep))
    rw [List.splitOn_intercalate _ _ hx (by simp)]
    exact decodeChunks_map o h (x :: xs)

theorem encode_mem_alpha (o : SerdeHashOptions) (h : o.valid) {S : List Nat} {c : Char}
    (hc : c ∈ encode o S) : c ∈ o.alphabet := by
  rw [encode] at hc
  rcases List.mem_append.1 hc with hc | hc
  · exact body_mem_alpha o h hc
  · exact (List.eq_of_mem_replicate hc) ▸ pad_mem_alpha o h

theorem decode_encode (o : SerdeHashOptions) (h : o.valid) (S : List Nat) :
    decode o (encode o S) = .ok S := by
  rw [decode, if_pos (fun c hc => encode_mem_alpha o h hc), unpad_encode o h S,
    parseBody_body o h S]
  simp

theorem decode_single_encode_single (o : SerdeHashOptions) (h : o.valid) (v : Nat) :
    decode_single o (encode_single o v) = .ok v := by
  rw [decode_single, encode_single, decode_encode o h [v]]
  simp

theorem decode_sound (o : SerdeHashOptions) {t : List Char} {S : List Nat}
    (hd : decode o t = .ok S) : t = encode o S := by
  rw [decode] at hd
  split at hd
  · cases hp : parseBody o (unpad (padChar o) t) with
    | error e => rw [hp] at hd; exact absurd hd (by simp)
    | ok S' =>
      rw [hp] at hd
      simp only at hd
      split at hd
      · rename_i heq
        cases hd
        exact heq.symm
      · exact absurd hd (by simp)
  · exact absurd hd (by simp)

theorem decode_bad_char (o : SerdeHashOptions) {t : List Char}
    (hbad : ∃ c ∈ t, c ∉ o.alphabet) :
    decode o t = .error "DecodeError: character outside the configured alphabet" := by
  obtain ⟨c, hc, hn⟩ := hbad
  rw [decode, if_neg (fun hall => hn (hall c hc))]

/-- C1: for every finite sequence `S` of u64 values, `decode (encode S)`
succeeds and returns exactly `S` in order, and for every u64 value `v`,
`decode_single (encode_single v)` succeeds and returns `v`, under any fixed
valid `SerdeHashOptions`. -/
theorem seq_roundtrip (o : SerdeHashOptions) (h : o.valid) :
    (∀ S : List Nat, (∀ v ∈ S, v < 2 ^ 64) → decode o (encode o S) = .ok S) ∧
    (∀ v : Nat, v < 2 ^ 64 → decode_single o (encode_single o v) = .ok v) :=
  ⟨fun S _ => decode_encode o h S, fun v _ => decode_single_encode_single o h v⟩

/-- Witness for C1 at the test configuration and concrete inputs. -/
theorem seq_roundtrip_witness :
    decode testOptions (encode testOptions [0, 1, 158674]) = .ok [0, 1, 158674] ∧
    decode_single testOptions (encode_single testOptions 42) = .ok 42 :=
  ⟨(seq_roundtrip testOptions (by decide)).1 [0, 1, 158674] (by decide),
   (seq_roundtrip testOptions (by decide)).2 42 (by decide)⟩

/-- C2: decoding a string containing a character outside the configured
alphabet returns a `DecodeError`, and decode only ever succeeds on the exact
encoding of the returned sequence — a malformed or tampered token never
decodes silently. -/
theorem decode_strict (o : SerdeHashOptions) (h : o.valid) :
    (∀ t : List Char, (∃ c ∈ t, c ∉ o.alphabet) → ∃ e, decode o t = .error e) ∧
    (∀ (t : List Char) (S : List Nat), decode o t = .ok S → t = encode o S) :=
  ⟨fun _ hbad => ⟨_, decode_bad_char o hbad⟩, fun _ _ hd => decode_sound o hd⟩

/-- Witness for C2: `decode "!!!"` fails under the strictly alphanumeric
test alphabet. -/
theorem decode_strict_witness :
    ∃ e, decode testOptions ("!!!".toList) = .error e :=
  (decode_strict testOptions (by decide)).1 _ ⟨'!', by decide, by decide⟩

/-- C3: `encode` is deterministic (a pure function of options and input),
and under salt "hello world", minimum length 10 and the standard
62-character alphabet, the single integer 158674 encodes to a fixed
10-character token that decodes back to 158674. -/
theorem deterministic_scenario :
    (∀ S : List Nat, encode testOptions S = encode testOptions S) ∧
    (encode_single testOptions 158674).length = 10 ∧
    decode_single testOptions (encode_single testOptions 158674) = .ok 158674 :=
  ⟨fun _ => rfl, by rfl, by rfl⟩

/-- C4: `decode_single` fails exactly when the underlying `decode` fails or
the decoded sequence does not have exactly one element; with exactly one
element it returns that element; in particular
`decode_single (encode [1, 2])` fails with an arity error. -/
theorem decode_single_spec (o : SerdeHashOptions) (h : o.valid) :
    (∀ t : List Char, (∃ e, decode_single o t = .error e) ↔
      ((∃ e, decode o t = .error e) ∨ (∃ S, decode o t = .ok S ∧ S.length ≠ 1))) ∧
    (∀ (t : List Char) (v : Nat), decode o t = .ok [v] → decode_single o t = .ok v) ∧
    (∃ e, decode_single o (encode o [1, 2]) = .error e) := by
  refine ⟨fun t => ?_, fun t v hd => ?_, ?_⟩
  · rw [decode_single]
    cases hd : decode o t with
    | error e => simp [hd]
    | ok l =>
      by_cases hl : l.length = 1
      · simp [hd, hl]
      · simp [hd, hl]
  · rw [decode_single, hd]
    simp
  · rw [decode_single, decode_encode o h [1, 2]]
    simp

/-- Witness for C4 at the test configuration. -/
theorem decode_single_spec_witness :
    ∃ e, decode_single testOptions (encode testOptions [1, 2]) = .error e :=
  (decode_single_spec testOptions (by decide)).2.2

/-- C5: `encode` is total (it always returns a string), its output is never
shorter than the configured minimum length, and the empty input yields a
defined non-empty padded string. -/
theorem encode_min_length (o : SerdeHashOptions) :
    (∀ S : List Nat, o.min_length ≤ (encode o S).length) ∧ encode o [] ≠ [] := by
  constructor
  · intro S
    rw [encode, List.length_append, List.length_replicate]
    omega
  · rw [encode]
    simp [body]

/-- Modelled from the spec: the state of std's `OnceLock` cell holding the
global options (`HASH_OPTIONS` in `src/serde_hash_impl/src/hashids.rs`):
`none` before initialization, `some v` once initialized; "initialized at
most once ..., then read-only for the rest of the process lifetime". -/
abbrev OnceLock (α : Type) : Type := Option α

/-- Modelled from the spec: `OnceLock::set` stores the value only if the
cell is empty; an already-initialized cell is left unchanged. -/
def OnceLock.store {α : Type} (st : OnceLock α) (v : α) : OnceLock α :=
  match st with
  | none => some v
  | some w => some w

/-- Modelled from the spec: `OnceLock::get_or_init` returns the stored value,
initializing the empty cell with the supplied default first; it returns the
value together with the resulting cell state. -/
def OnceLock.getOrInit {α : Type} (st : OnceLock α) (d : α) : α × OnceLock α :=
  match st with
  | none => (d, some d)
  | some w => (w, some w)

/-- Mirrors `get_hash_options` from `src/serde_hash_impl/src/hashids.rs`:
`HASH_OPTIONS.get_or_init(SerdeHashOptions::default)`.  The
randomly-generated default configuration is passed as the argument `d`. -/
def get_hash_options (d : SerdeHashOptions) (st : OnceLock SerdeHashOptions) :
    SerdeHashOptions × OnceLock SerdeHashOptions :=
  OnceLock.getOrInit st d

/-- Mirrors `SerdeHashOptions::build` from
`src/serde_hash_impl/src/hashids.rs`: `let _ = HASH_OPTIONS.set(self)` —
the result of the set is discarded, so a repeated build is silently
ignored and never an error. -/
def SerdeHashOptions.build (o : SerdeHashOptions) (st : OnceLock SerdeHashOptions) :
    OnceLock SerdeHashOptions :=
  OnceLock.store st o

/-- C6: the global options cell is initialized at most once: a read of an
initialized cell returns the stored options and leaves them unchanged, the
first read of an empty cell installs the default, a `build` against an
initialized cell is silently ignored (it is total, hence never an error),
and of two successive builds the first wins. -/
theorem once_options (d o o' w : SerdeHashOptions) :
    get_hash_options d (some w) = (w, some w) ∧
    get_hash_options d none = (d, some d) ∧
    SerdeHashOptions.build o' (some w) = some w ∧
    SerdeHashOptions.build o' (SerdeHashOptions.build o none) = some o :=
  ⟨rfl, rfl, rfl, rfl⟩

/-- The shape of a Rust field type as inspected by the derive macros in
`src/serde_hash_derive/src/lib.rs`: a single-segment path with its
angle-bracketed type arguments, or any other type expression. -/
inductive RustType where
  | path (name : String) (args : List RustType)
  | other

/-- Mirrors `is_numeric_type` from `src/serde_hash_derive/src/lib.rs`: a
single-segment path whose identifier is one of the six unsigned widths
(`matches!(ident, "u8" | "u16" | "u32" | "u64" | "u128" | "usize")`). -/
def is_numeric_type : RustType → Bool
  | .path name _ =>
    name == "u8" || name == "u16" || name == "u32" || name == "u64" ||
      name == "u128" || name == "usize"
  | .other => false

/-- Mirrors `is_vector_of_numeric` from `src/serde_hash_derive/src/lib.rs`:
a path `Vec` with exactly one type argument which is numeric. -/
def is_vector_of_numeric : RustType → Bool
  | .path name args =>
    name == "Vec" &&
      (match args with
       | [inner] => is_numeric_type inner
       | _ => false)
  | .other => false

/-- Mirrors `is_option_of_numeric` from `src/serde_hash_derive/src/lib.rs`:
a path `Option` with exactly one type argument which is numeric. -/
def is_option_of_numeric : RustType → Bool
  | .path name args =>
    name == "Option" &&
      (match args with
       | [inner] => is_numeric_type inner
       | _ => false)
  | .other => false

/-- Mirrors `is_option_of_vector_of_numeric` from
`src/serde_hash_derive/src/lib.rs`: a path `Option` with exactly one type
argument which is a vector of numerics. -/
def is_option_of_vector_of_numeric : RustType → Bool
  | .path name args =>
    name == "Option" &&
      (match args with
       | [inner] => is_vector_of_numeric inner
       | _ => false)
  | .other => false

/-- Mirrors `determine_with_path` from `src/serde_hash_derive/src/lib.rs`:
the code path of the `with` attribute attached to a hashed field, chosen by
the first matching type-shape predicate. -/
def determine_with_path (ty : RustType) : Option String :=
  if is_numeric_type ty then some "serde_hash::serde_impl::numeric"
  else if is_vector_of_numeric ty then some "serde_hash::serde_impl::vec_numeric"
  else if is_option_of_numeric ty then some "serde_hash::serde_impl::option_numeric"
  else if is_option_of_vector_of_numeric ty then some "serde_hash::serde_impl::option_vec_numeric"
  else none

/-- The five field categories of the spec's data model. -/
inductive FieldCategory where
  | Numeric
  | SequenceOfNumeric
  | OptionalNumeric
  | OptionalSequenceOfNumeric
  | Passthrough
deriving DecidableEq

/-- A classification failure: the build-time error emitted by the derive
macros for a hash-marked field of unsupported type, carrying the field name
and the offending type. -/
inductive ClassifyError where
  | unsupported (field : String) (ty : RustType)

/-- The classification performed by `serde_hash` / `hash_id_derive` in
`src/serde_hash_derive/src/lib.rs`: an unmarked field passes through; a
marked field is dispatched through the four type-shape predicates in the
order of `determine_with_path`, and any other marked type is a build-time
error naming the field and its type. -/
def classifyField (marked : Bool) (field : String) (ty : RustType) :
    Except ClassifyError FieldCategory :=
  if marked then
    if is_numeric_type ty then .ok .Numeric
    else if is_vector_of_numeric ty then .ok .SequenceOfNumeric
    else if is_option_of_numeric ty then .ok .OptionalNumeric
    else if is_option_of_vector_of_numeric ty then .ok .OptionalSequenceOfNumeric
    else .error (.unsupported field ty)
  else .ok .Passthrough

/-- The six numeric width names recognized by the classifier. -/
def numericTypeNames : List String :=
  ["u8", "u16", "u32", "u64", "u128", "usize"]

theorem numeric_name {name : String} {args : List RustType}
    (h : is_numeric_type (.path name args) = true) :
    name = "u8" ∨ name = "u16" ∨ name = "u32" ∨ name = "u64" ∨
      name = "u128" ∨ name = "usize" := by
  simp only [is_numeric_type, Bool.or_eq_true, beq_iff_eq] at h
  tauto

theorem vector_shape {name : String} {args : List RustType}
    (h : is_vector_of_numeric (.path name args) = true) :
    name = "Vec" ∧ ∃ i, args = [i] ∧ is_numeric_type i = true := by
  cases args with
  | nil => simp [is_vector_of_numeric] at h
  | cons a t =>
    cases t with
    | nil =>
      simp only [is_vector_of_numeric, Bool.and_eq_true, beq_iff_eq] at h
      exact ⟨h.1, a, rfl, h.2⟩
    | cons b t2 => simp [is_vector_of_numeric] at h

theorem option_numeric_shape {name : String} {args : List RustType}
    (h : is_option_of_numeric (.path name args) = true) :
    name = "Option" ∧ ∃ i, args = [i] ∧ is_numeric_type i = true := by
  cases args with
  | nil => simp [is_option_of_numeric] at h
  | cons a t =>
    cases t with
    | nil =>
      simp only [is_option_of_numeric, Bool.and_eq_true, beq_iff_eq] at h
      exact ⟨h.1, a, rfl, h.2⟩
    | cons b t2 => simp [is_option_of_numeric] at h

theorem option_vector_shape {name : String} {args : List RustType}
    (h : is_option_of_vector_of_numeric (.path name args) = true) :
    name = "Option" ∧ ∃ i, args = [i] ∧ is_vector_of_numeric i = true := by
  cases args with
  | nil => simp [is_option_of_vector_of_numeric] at h
  | cons a t =>
    cases t with
    | nil =>
      simp only [is_option_of_vector_of_numeric, Bool.and_eq_true, beq_iff_eq] at h
      exact ⟨h.1, a, rfl, h.2⟩
    | cons b t2 => simp [is_option_of_vector_of_numeric] at h

theorem numeric_name_not_special {name : String} {args : List RustType}
    (hn : is_numeric_type (.path name args) = true) :
    name ≠ "Vec" ∧ name ≠ "Option" := by
  rcases numeric_name hn with rfl | rfl | rfl | rfl | rfl | rfl <;>
    exact ⟨by decide, by decide⟩

theorem numeric_vector_false (t : RustType) (hn : is_numeric_type t = true)
    (hv : is_vector_of_numeric t = true) : False := by
  cases t with
  | other => simp [is_numeric_type] at hn
  | path name args => exact (numeric_name_not_special hn).1 (vector_shape hv).1

/-- C7: classification of a hash-marked field is total and mutually
exclusive over type shapes: each unsigned width classifies as `Numeric`,
`Vec` of one as `SequenceOfNumeric`, `Option` of one as `OptionalNumeric`,
`Option<Vec<...>>` as `OptionalSequenceOfNumeric`, the four shape predicates
are pairwise exclusive, and any other marked type yields a build-time
classification error carrying the field and its type. -/
theorem classify_total (f : String) :
    (∀ n, n ∈ numericTypeNames →
      classifyField true f (.path n []) = .ok .Numeric) ∧
    (∀ n, n ∈ numericTypeNames →
      classifyField true f (.path "Vec" [.path n []]) = .ok .SequenceOfNumeric) ∧
    (∀ n, n ∈ numericTypeNames →
      classifyField true f (.path "Option" [.path n []]) = .ok .OptionalNumeric) ∧
    (∀ n, n ∈ numericTypeNames →
      classifyField true f (.path "Option" [.path "Vec" [.path n []]]) =
        .ok .OptionalSequenceOfNumeric) ∧
    (∀ ty, determine_with_path ty = none →
      classifyField true f ty = .error (.unsupported f ty)) ∧
    (∀ ty : RustType,
      ¬(is_numeric_type ty = true ∧ is_vector_of_numeric ty = true) ∧
      ¬(is_numeric_type ty = true ∧ is_option_of_numeric ty = true) ∧
      ¬(is_numeric_type ty = true ∧ is_option_of_vector_of_numeric ty = true) ∧
      ¬(is_vector_of_numeric ty = true ∧ is_option_of_numeric ty = true) ∧
      ¬(is_vector_of_numeric ty = true ∧ is_option_of_vector_of_numeric ty = true) ∧
      ¬(is_option_of_numeric ty = true ∧ is_option_of_vector_of_numeric ty = true)) := by
  refine ⟨fun n hn => ?_, fun n hn => ?_, fun n hn => ?_, fun n hn => ?_,
    fun ty hnone => ?_, fun ty => ?_⟩
  · fin_cases hn <;> rfl
  · fin_cases hn <;> rfl
  · fin_cases hn <;> rfl
  · fin_cases hn <;> rfl
  · by_cases k1 : is_numeric_type ty = true
    · simp [determine_with_path, k1] at hnone
    · by_cases k2 : is_vector_of_numeric ty = true
      · simp [determine_with_path, k1, k2] at hnone
      · by_cases k3 : is_option_of_numeric ty = true
        · simp [determine_with_path, k1, k2, k3] at hnone
        · by_cases k4 : is_option_of_vector_of_numeric ty = true
          · simp [determine_with_path, k1, k2, k3, k4] at hnone
          · simp [classifyField, k1, k2, k3, k4]
  · refine ⟨fun hc => numeric_vector_false ty hc.1 hc.2, fun hc => ?_, fun hc => ?_,
      fun hc => ?_, fun hc => ?_, fun hc => ?_⟩
    · cases ty with
      | other => simp [is_numeric_type] at hc
      | path name args =>
        exact (numeric_name_not_special hc.1).2 (option_numeric_shape hc.2).1
    · cases ty with
      | other => simp [is_numeric_type] at hc
      | path name args =>
        exact (numeric_name_not_special hc.1).2 (option_vector_shape hc.2).1
    · cases ty with
      | other => simp [is_vector_of_numeric] at hc
      | path name args =>
        have h1 := (vector_shape hc.1).1
        have h2 := (option_numeric_shape hc.2).1
        exact absurd (h1.symm.trans h2) (by decide)
    · cases ty with
      | other => simp [is_vector_of_numeric] at hc
      | path name args =>
        have h1 := (vector_shape hc.1).1
        have h2 := (option_vector_shape hc.2).1
        exact absurd (h1.symm.trans h2) (by decide)
    · cases ty with
      | other => simp [is_option_of_numeric] at hc
      | path name args =>
        obtain ⟨i, hi, hni⟩ := (option_numeric_shape hc.1).2
        obtain ⟨j, hj, hvj⟩ := (option_vector_shape hc.2).2
        rw [hi] at hj
        simp only [List.cons.injEq, and_true] at hj
        exact numeric_vector_false i hni (hj ▸ hvj)

/-- Witness for C7: `u64` classifies as `Numeric`; a hash-marked `f32`
field is a build-time classification error naming the field and its type. -/
theorem classify_total_witness :
    classifyField true "id" (.path "u64" []) = .ok .Numeric ∧
    classifyField true "ratio" (.path "f32" []) =
      .error (.unsupported "ratio" (.path "f32" [])) :=
  ⟨(classify_total "id").1 "u64" (by decide),
   (classify_total "ratio").2.2.2.2.1 (.path "f32" []) (by rfl)⟩

/-- Mirrors `numeric::serialize` from `src/serde_hash/src/serde_impl.rs`;
the codec call `encode_single(value.to_u64())` is the parameter `enc`. -/
def numeric_serialize (enc : Nat → List Char) (value : Nat) : List Char :=
  enc value

/-- Mirrors `numeric::deserialize` from `src/serde_hash/src/serde_impl.rs`;
the codec call `decode_single` is the parameter `dec`. -/
def numeric_deserialize (dec : List Char → Except String Nat) (s : List Char) :
    Except String Nat :=
  dec s

/-- Mirrors `vec_numeric::serialize` from `src/serde_hash/src/serde_impl.rs`:
element-wise encoding, order preserved. -/
def vec_numeric_serialize (enc : Nat → List Char) (value : List Nat) :
    List (List Char) :=
  value.map enc

/-- Mirrors `vec_numeric::deserialize` from
`src/serde_hash/src/serde_impl.rs`: element-wise decoding, failing on the
first bad element. -/
def vec_numeric_deserialize (dec : List Char → Except String Nat) :
    List (List Char) → Except String (List Nat)
  | [] => .ok []
  | s :: rest =>
    match dec s, vec_numeric_deserialize dec rest with
    | .ok v, .ok vs => .ok (v :: vs)
    | .error e, _ => .error e
    | .ok _, .error e => .error e

/-- Mirrors `option_numeric::serialize` from
`src/serde_hash/src/serde_impl.rs`: `Some` encodes and wraps, `None`
serializes as none without touching the codec. -/
def option_numeric_serialize (enc : Nat → List Char) :
    Option Nat → Option (List Char)
  | some v => some (enc v)
  | none => none

/-- Mirrors `option_numeric::deserialize` from
`src/serde_hash/src/serde_impl.rs`: a present string decodes, an absent one
returns `None` without touching the codec. -/
def option_numeric_deserialize (dec : List Char → Except String Nat) :
    Option (List Char) → Except String (Option Nat)
  | some s =>
    match dec s with
    | .ok v => .ok (some v)
    | .error e => .error e
  | none => .ok none

/-- Mirrors `option_vec_numeric::serialize` from
`src/serde_hash/src/serde_impl.rs`. -/
def option_vec_numeric_serialize (enc : Nat → List Char) :
    Option (List Nat) → Option (List (List Char))
  | some vs => some (vs.map enc)
  | none => none

/-- Mirrors `option_vec_numeric::deserialize` from
`src/serde_hash/src/serde_impl.rs`. -/
def option_vec_numeric_deserialize (dec : List Char → Except String Nat) :
    Option (List (List Char)) → Except String (Option (List Nat))
  | some ss =>
    match vec_numeric_deserialize dec ss with
    | .ok vs => .ok (some vs)
    | .error e => .error e
  | none => .ok none

/-- C8: for an optional hashed field absence maps to absence in both
directions and the result on absence is independent of the codec (so the
codec is never consulted), while a present value delegates to the
corresponding non-optional rule. -/
theorem option_absence :
    (∀ enc : Nat → List Char, option_numeric_serialize enc none = none) ∧
    (∀ enc enc' : Nat → List Char,
      option_numeric_serialize enc none = option_numeric_serialize enc' none) ∧
    (∀ dec : List Char → Except String Nat,
      option_numeric_deserialize dec none = .ok none) ∧
    (∀ dec dec' : List Char → Except String Nat,
      option_numeric_deserialize dec none = option_numeric_deserialize dec' none) ∧
    (∀ (enc : Nat → List Char) (v : Nat),
      option_numeric_serialize enc (some v) = some (numeric_serialize enc v)) ∧
    (∀ (dec : List Char → Except String Nat) (s : List Char),
      option_numeric_deserialize dec (some s) =
        Except.map some (numeric_deserialize dec s)) ∧
    (∀ enc : Nat → List Char, option_vec_numeric_serialize enc none = none) ∧
    (∀ dec : List Char → Except String Nat,
      option_vec_numeric_deserialize dec none = .ok none) ∧
    (∀ (enc : Nat → List Char) (vs : List Nat),
      option_vec_numeric_serialize enc (some vs) =
        some (vec_numeric_serialize enc vs)) ∧
    (∀ (dec : List Char → Except String Nat) (ss : List (List Char)),
      option_vec_numeric_deserialize dec (some ss) =
        Except.map some (vec_numeric_deserialize dec ss)) := by
  refine ⟨fun _ => rfl, fun _ _ => rfl, fun _ => rfl, fun _ _ => rfl,
    fun _ _ => rfl, fun dec s => ?_, fun _ => rfl, fun _ => rfl,
    fun _ _ => rfl, fun dec ss => ?_⟩
  · rw [option_numeric_deserialize, numeric_deserialize]
    cases dec s <;> rfl
  · rw [option_vec_numeric_deserialize]
    cases vec_numeric_deserialize dec ss <;> rfl

/-- Mirrors `HashNumeric::to_u64` for `u128` from
`src/serde_hash/src/serde_impl.rs`: `self as u64`, which in Rust reduces
the value modulo 2^64. -/
def u128_to_u64 (v : Nat) : Nat :=
  v % 2 ^ 64

/-- Mirrors `HashNumeric::from_u64` for `u128` from
`src/serde_hash/src/serde_impl.rs`: `v as Self`, a lossless widening. -/
def u128_from_u64 (v : Nat) : Nat :=
  v

/-- Mirrors `numeric::serialize` instantiated at `T = u128` with the
modelled codec. -/
def u128_serialize (o : SerdeHashOptions) (v : Nat) : List Char :=
  encode_single o (u128_to_u64 v)

/-- Mirrors `numeric::deserialize` instantiated at `T = u128` with the
modelled codec. -/
def u128_deserialize (o : SerdeHashOptions) (s : List Char) : Except String Nat :=
  match decode_single o s with
  | .ok v => .ok (u128_from_u64 v)
  | .error e => .error e

/-- C9: serializing and then deserializing a hashed `u128` field holding
`v` yields `v mod 2^64` — the conversion truncates the high bits silently
rather than rejecting them. -/
theorem u128_truncation (o : SerdeHashOptions) (h : o.valid) (v : Nat)
    (hv : v < 2 ^ 128) :
    u128_deserialize o (u128_serialize o v) = .ok (v % 2 ^ 64) := by
  rw [u128_serialize, u128_deserialize, u128_to_u64,
    decode_single_encode_single o h (v % 2 ^ 64)]
  rfl

/-- Witness for C9: a value at least `2^64` comes back reduced modulo
`2^64`. -/
theorem u128_truncation_witness :
    u128_deserialize testOptions (u128_serialize testOptions (2 ^ 64 + 5)) =
      .ok ((2 ^ 64 + 5) % 2 ^ 64) :=
  u128_truncation testOptions (by decide) (2 ^ 64 + 5) (by norm_num)

/-- Deserialization errors surfaced by the visitor that the legacy
`#[derive(HashIds)]` generates: serde's missing-field error or a custom
decode failure. -/
inductive DeError where
  | missingField (field : String)
  | custom (msg : String)

/-- Mirrors the `visit_map` code generated by the legacy
`#[derive(HashIds)]` in `src/serde_hash_derive/src/lib.rs` for a struct
with one `Option<numeric>` hash field named `k`: entries are scanned in
order, a present string decodes through `decode_single`, an explicit null
records `Some None`; after the scan a never-seen field is
`ok_or_else(missing_field)`. -/
def visit_option_field (o : SerdeHashOptions) (k : String) :
    List (String × Option (List Char)) → Option (Option Nat) →
      Except DeError (Option Nat)
  | [], acc =>
    match acc with
    | some r => .ok r
    | none => .error (.missingField k)
  | (key, v) :: rest, acc =>
    if key = k then
      match v with
      | some s =>
        match decode_single o s with
        | .ok n => visit_option_field o k rest (some (some n))
        | .error e => .error (.custom e)
      | none => visit_option_field o k rest (some none)
    else visit_option_field o k rest acc

/-- Mirrors the `serialize` code generated by the legacy derive for the
same struct: a `None` option field is written as an explicitly present
null entry, a `Some` as an encoded string entry. -/
def serialize_option_field (o : SerdeHashOptions) (k : String) :
    Option Nat → List (String × Option (List Char))
  | some v => [(k, some (encode_single o v))]
  | none => [(k, none)]

/-- C10: through the legacy `HashIds` derive, a map input that omits the
key of an `Option`-typed hashed field entirely is rejected with a
missing-field error; absence round-trips only through the explicitly
present null entry the serializer emits, which decodes to `None`. -/
theorem option_field_missing_key (o : SerdeHashOptions) (k : String) :
    (∀ entries, (∀ e ∈ entries, e.1 ≠ k) →
      visit_option_field o k entries none = .error (.missingField k)) ∧
    serialize_option_field o k none = [(k, none)] ∧
    visit_option_field o k (serialize_option_field o k none) none = .ok none := by
  refine ⟨fun entries hne => ?_, rfl, ?_⟩
  · induction entries with
    | nil => rfl
    | cons e rest ih =>
      obtain ⟨key, v⟩ := e
      have hkey : key ≠ k := hne (key, v) (List.mem_cons_self _ _)
      simp only [visit_option_field, if_neg hkey]
      exact ih (fun e he => hne e (List.mem_cons_of_mem _ he))
  · simp [serialize_option_field, visit_option_field]

/-- Witness for C10: a map holding only an unrelated key is rejected with
the missing-field error for the option field. -/
theorem option_field_missing_key_witness :
    visit_option_field testOptions "id"
        [("name", (none : Option (List Char)))] none =
      .error (.missingField "id") :=
  (option_field_missing_key testOptions "id").1
    [("name", none)] (by decide)

end SerdeHash
